/-
Verification of the application discovery / launch / terminate core of the
Personal-Ai-Assistant repository (src/jarvis/applications.py).

The Python code is shallowly embedded: the in-memory catalog (a Python dict
keyed by synthetic string ids, insertion-ordered) is modelled as an
association list `List (key × value)` with an insertion-order-preserving
update `alSet`; the fuzzywuzzy similarity functions (external library code)
are parameters of the matcher definitions; filesystem and process state are
explicit function/record parameters.
-/
import Mathlib

set_option autoImplicit false

namespace JarvisApps

/-- Embeds the `Application` dataclass (applications.py, lines 41-59).
`last_used : Option datetime` is modelled as `Option Nat`. -/
structure Application where
  name : String
  display_name : String
  path : String
  launch_command : String
  app_type : String
  description : String := ""
  icon_path : String := ""
  install_location : String := ""
  publisher : String := ""
  version : String := ""
  keywords : List String := []
  last_used : Option Nat := none
deriving DecidableEq, Repr

/-! ### Association lists modelling insertion-ordered Python dicts -/

/-- `m[k]` lookup in a Python dict modelled as an association list. -/
def alGet {κ α : Type} [DecidableEq κ] : List (κ × α) → κ → Option α
  | [], _ => none
  | p :: t, k => if p.1 = k then some p.2 else alGet t k

/-- `m[k] = v` assignment in a Python dict: updates the value in place when
the key is present (position preserved), otherwise appends at the end.  All
maps in this file are built from `[]` through `alSet`, so keys occur at most
once and replacing the first occurrence is exactly the dict update. -/
def alSet {κ α : Type} [DecidableEq κ] : List (κ × α) → κ → α → List (κ × α)
  | [], k, v => [(k, v)]
  | p :: t, k, v => if p.1 = k then (k, v) :: t else p :: alSet t k v

/-! ### Aggregator / deduplicator (`_process_discovered_applications`,
applications.py lines 643-666) -/

/-- The dedup identity key from line 654:
`dedup_key = (app.name, app.path.lower() if app.path else "")`. -/
def appKey (a : Application) : String × String :=
  (a.name, if a.path = "" then "" else a.path.toLower)

/-- One iteration of the dedup loop (lines 648-662): invalid entries are
skipped; a fresh key is inserted; an existing key is overwritten exactly when
`len(app.description) > len(existing.description) or app.app_type != "shortcut"`. -/
def processStep (m : List ((String × String) × Application)) (a : Application) :
    List ((String × String) × Application) :=
  if a.name = "" ∨ a.launch_command = "" then m
  else
    match alGet m (appKey a) with
    | none => alSet m (appKey a) a
    | some existing =>
        if existing.description.length < a.description.length ∨
            a.app_type ≠ "shortcut" then
          alSet m (appKey a) a
        else m

/-- The deduplicated catalog values, in dict insertion order
(`unique_apps.values()` at line 666). -/
def processedValues (l : List Application) : List Application :=
  (l.foldl processStep []).map (fun p => p.2)

/-- Re-keying with synthetic ids (line 665):
`{f"app_{i}": app for i, app in enumerate(unique_apps.values())}`. -/
def rekeyApps (l : List Application) : List (String × Application) :=
  l.enum.map (fun p => ("app_" ++ toString p.1, p.2))

/-- `_process_discovered_applications` as a whole: dedup then re-key. -/
def processDiscoveredApplications (l : List Application) :
    List (String × Application) :=
  rekeyApps (processedValues l)

/-- The tie-break rule as worded by the spec (section 3 / 4.2): the entry with
the longer `description` wins; on equal description length a non-shortcut
`kind` wins over a shortcut.  Declared only to compare with the code. -/
def specTieBreak (a b : Application) : Application :=
  if b.description.length < a.description.length then a
  else if a.description.length < b.description.length then b
  else if a.app_type ≠ "shortcut" ∧ b.app_type = "shortcut" then a
  else if b.app_type ≠ "shortcut" ∧ a.app_type = "shortcut" then b
  else a

/-! ### Discovery pass with scanner isolation
(`discover_all_applications`, applications.py lines 80-125) -/

/-- A source scanner, abstracted by its observable effect: the keyed entries it
assigns into `self.applications` before returning or raising, and whether it
raises.  A scanner that raises immediately has `inserts = []`. -/
structure Scanner where
  inserts : List (String × Application)
  fails : Bool
deriving DecidableEq, Repr

/-- A scanner body's dict assignments `self.applications[app_id] = app`. -/
def dictInsertList (m : List (String × Application))
    (l : List (String × Application)) : List (String × Application) :=
  l.foldl (fun m kv => alSet m kv.1 kv.2) m

/-- Runs one scanner method: the shared accumulator after the method returns
or raises, plus the raised error if any. -/
def scanExec (m : List (String × Application)) (s : Scanner) :
    List (String × Application) × Option String :=
  (dictInsertList m s.inserts, if s.fails then some "scan error" else none)

/-- The discovery loop (lines 106-115): each scanner runs inside
`try ... except Exception`, so the pass continues with the accumulator as the
scanner left it, whether or not the scanner raised. -/
def discoveryLoop (ss : List Scanner) : List (String × Application) :=
  ss.foldl (fun m s => (scanExec m s).1) []

/-- What the loop would do without the per-scanner `try`/`except`: the first
raising scanner aborts the whole pass. -/
def discoveryLoopNoHandler (ss : List Scanner) :
    Except String (List (String × Application)) :=
  ss.foldl
    (fun acc s =>
      match acc with
      | .error e => .error e
      | .ok m =>
          match scanExec m s with
          | (m2, none) => .ok m2
          | (_, some e) => .error e)
    (.ok [])

/-! ### Cache manager (`_is_cache_valid` / `_load_from_cache` /
`discover_all_applications`, lines 80-92 and 668-691) -/

/-- Observable state of the snapshot file `jarvis_applications.json`:
whether it exists, its age (now minus mtime, in seconds), and the parse
outcome of its contents (`none` models any read or JSON-parse failure). -/
structure CacheState where
  fileExists : Bool
  ageSeconds : Nat
  parsed : Option (List (String × Application))
deriving Repr

/-- `cache_duration = timedelta(hours=6)` (line 68), in seconds. -/
def cacheDurationSeconds : Nat := 6 * 60 * 60

/-- `_is_cache_valid` (lines 668-674): the file exists and its age is
strictly below the TTL. -/
def isCacheValid (c : CacheState) : Bool :=
  c.fileExists && decide (c.ageSeconds < cacheDurationSeconds)

/-- `_load_from_cache` (lines 676-691): any read or parse failure is caught
and yields an empty dict. -/
def loadFromCache (c : CacheState) : List (String × Application) :=
  match c.parsed with
  | some m => m
  | none => []

/-- The full rediscovery pass of `discover_all_applications`: run all
scanners, then process/dedup/re-key (cache saving is best-effort and does not
change the returned catalog). -/
def fullDiscoveryPass (ss : List Scanner) : List (String × Application) :=
  processDiscoveredApplications ((discoveryLoop ss).map (fun p => p.2))

/-- `discover_all_applications(use_cache)` (lines 80-125).  The returned
Boolean records whether a fresh discovery pass was run (`False` both for the
cache branch and for the early no-Windows return). -/
def discoverAllApplications (windowsAvailable useCache : Bool) (c : CacheState)
    (ss : List Scanner) : Bool × List (String × Application) :=
  if !windowsAvailable then (false, [])
  else if useCache && isCacheValid c then (false, loadFromCache c)
  else (true, fullDiscoveryPass ss)

/-! ### Fuzzy matcher (`ApplicationLauncher.find_application`,
applications.py lines 724-769)

The three fuzzywuzzy similarity measures `fuzz.ratio`, `fuzz.partial_ratio`
and `fuzz.token_sort_ratio` are external library code; they enter the
embedding as parameters `rfn pfn tfn : String → String → Nat`
(0-100 similarity scores). -/

/-- `best_score = max(ratio, partial_ratio, token_sort_ratio)` (line 753),
with both strings lowercased at the call sites (lines 746-750). -/
def candidateScore (rfn pfn tfn : String → String → Nat)
    (queryLower text : String) : Nat :=
  max (rfn queryLower text.toLower)
    (max (pfn queryLower text.toLower) (tfn queryLower text.toLower))

/-- The candidate pool (lines 730-738): per catalog entry, its display name,
its cleaned name, and every keyword, each paired with the entry. -/
def searchCandidates (apps : List Application) : List (String × Application) :=
  apps.flatMap (fun app =>
    (app.display_name, app) :: (app.name, app) ::
      app.keywords.map (fun k => (k, app)))

/-- The thresholded match list (lines 740-756): every candidate whose best
score reaches the threshold, paired with that score. -/
def rawMatches (rfn pfn tfn : String → String → Nat) (query : String)
    (threshold : Nat) (apps : List Application) : List (Application × Nat) :=
  (searchCandidates apps).filterMap (fun c =>
    let s := candidateScore rfn pfn tfn query.toLower c.1
    if threshold ≤ s then some (c.2, s) else none)

/-- The dedup key of line 761: `key = (app.name, app.path)`. -/
def matchKey (p : Application × Nat) : String × String := (p.1.name, p.1.path)

/-- One iteration of the dedup loop (lines 759-763): keep the entry with the
strictly higher score per key; the first entry wins ties and keeps its dict
position. -/
def dedupStep (m : List ((String × String) × (Application × Nat)))
    (p : Application × Nat) : List ((String × String) × (Application × Nat)) :=
  match alGet m (matchKey p) with
  | none => alSet m (matchKey p) p
  | some q => if q.2 < p.2 then alSet m (matchKey p) p else m

/-- The `unique_matches` dict after the dedup loop. -/
def dedupMatches (l : List (Application × Nat)) :
    List ((String × String) × (Application × Nat)) :=
  l.foldl dedupStep []

/-- Stable insertion of one scored entry into a descending-sorted list: the
inserted element goes before every element with a score less than or equal to
its own. -/
def insertByScore (x : Application × Nat) :
    List (Application × Nat) → List (Application × Nat)
  | [] => [x]
  | y :: ys => if y.2 ≤ x.2 then x :: y :: ys else y :: insertByScore x ys

/-- `sorted(unique_matches.values(), key=lambda x: x[1], reverse=True)`
(lines 766-767): Python's sort is stable, so this is the unique
score-descending order in which equal scores keep their list order. -/
def sortByScoreDesc : List (Application × Nat) → List (Application × Nat)
  | [] => []
  | x :: xs => insertByScore x (sortByScoreDesc xs)

/-- `find_application(query, threshold=70)` (lines 724-769): empty catalog
short-circuit, candidate scoring, thresholding, per-key dedup, stable sort by
descending score, truncation to the top 10. -/
def find_application (rfn pfn tfn : String → String → Nat) (query : String)
    (threshold : Nat) (apps : List Application) : List (Application × Nat) :=
  if apps.isEmpty then []
  else
    (sortByScoreDesc
        ((dedupMatches (rawMatches rfn pfn tfn query threshold apps)).map
          (fun p => p.2))).take 10

/-- The candidate strings of one catalog entry, as worded by the spec
(section 4.4): `displayName`, cleaned `name`, and every `keyword`. -/
def candidateStrings (app : Application) : List String :=
  app.display_name :: app.name :: app.keywords

/-- The spec wording of an entry's score: the maximum candidate score over
all of its candidate strings. -/
def entryScore (rfn pfn tfn : String → String → Nat) (query : String)
    (app : Application) : Nat :=
  ((candidateStrings app).map
      (candidateScore rfn pfn tfn query.toLower)).foldl max 0

/-- The spec wording of the thresholded survivors: each entry scored once by
`entryScore`, entries below the threshold discarded. -/
def specSurvivors (rfn pfn tfn : String → String → Nat) (query : String)
    (threshold : Nat) (apps : List Application) : List (Application × Nat) :=
  apps.filterMap (fun app =>
    let s := entryScore rfn pfn tfn query app
    if threshold ≤ s then some (app, s) else none)

/-- The matcher as worded by the spec (section 4.4): entry-level maximum
score, threshold filter, dedup by (`name`, `path`) keeping the highest score
per key, stable descending sort, top 10.  Declared to compare with
`find_application`. -/
def find_application_spec (rfn pfn tfn : String → String → Nat)
    (query : String) (threshold : Nat) (apps : List Application) :
    List (Application × Nat) :=
  if apps.isEmpty then []
  else
    (sortByScoreDesc
        ((dedupMatches (specSurvivors rfn pfn tfn query threshold apps)).map
          (fun p => p.2))).take 10

/-! ### Launcher (`launch_application` / `launch_application_by_name`,
applications.py lines 771-856) -/

/-- A filesystem node kind, for `os.path.exists` / `os.path.isdir`. -/
inductive FsNode where
  | file
  | dir
deriving DecidableEq, Repr

/-- `os.path.exists`, over an explicit filesystem map. -/
def osPathExists (fs : String → Option FsNode) (p : String) : Bool :=
  (fs p).isSome

/-- `os.path.isdir`, over an explicit filesystem map. -/
def osPathIsDir (fs : String → Option FsNode) (p : String) : Bool :=
  fs p == some FsNode.dir

/-- The subprocess start performed by a launch: the command string handed to
`subprocess.Popen` and the working directory (`none` = default). -/
structure SpawnCall where
  cmd : String
  cwd : Option String
deriving DecidableEq, Repr

/-- The dispatch of `launch_application` (lines 776-796), reduced to the
spawn it performs.  For the executable/shortcut branch the code checks
`app.path and os.path.exists(app.path)` and then
`app.install_location and os.path.exists(app.install_location)`
(string truthiness plus existence, lines 787-788). -/
def launchApplicationSpawn (fs : String → Option FsNode) (a : Application) :
    SpawnCall :=
  if a.app_type = "uwp" then ⟨a.launch_command, none⟩
  else if a.app_type = "steam" then ⟨a.launch_command, none⟩
  else if a.app_type = "system" then ⟨a.launch_command, none⟩
  else if a.path ≠ "" ∧ osPathExists fs a.path then
    if a.install_location ≠ "" ∧ osPathExists fs a.install_location then
      ⟨a.launch_command, some a.install_location⟩
    else ⟨a.launch_command, none⟩
  else ⟨a.launch_command, none⟩

/-- The dict returned by `launch_application_by_name` (lines 823-856).  The
Python dicts have branch-dependent key sets; fields absent in a branch keep
their defaults here. -/
structure LaunchNameResult where
  success : Bool
  app_name : String
  suggestions : List (String × Nat × String) := []
  path : String := ""
  score : Nat := 0
  message : String := ""
deriving DecidableEq, Repr

/-- `launch_application_by_name` (lines 823-856).  `launchOk` abstracts
whether `launch_application` succeeds on the chosen entry (its subprocess
side effects are external).  On no match at the default threshold 70, the
result carries up to 5 suggestions computed at the lowered threshold 50. -/
def launch_application_by_name (launchOk : Application → Bool)
    (rfn pfn tfn : String → String → Nat) (apps : List Application)
    (app_name : String) : LaunchNameResult :=
  match find_application rfn pfn tfn app_name 70 apps with
  | [] =>
      let all_matches := find_application rfn pfn tfn app_name 50 apps
      let suggestions :=
        (all_matches.take 5).map (fun p => (p.1.display_name, p.2, p.1.path))
      { success := false
        app_name := app_name
        suggestions := suggestions
        message := "No application found matching " ++ app_name }
  | (best, score) :: _ =>
      let ok := launchOk best
      { success := ok
        app_name := best.display_name
        path := best.path
        score := score
        message :=
          if ok then "Launched " ++ best.display_name
          else "Failed to launch " ++ best.display_name }

/-! ### Process terminator (`find_running_processes` /
`close_application_by_name`, applications.py lines 872-987) -/

/-- A running process as seen through psutil: pid, process name, executable
path (`""` models a missing `exe` field). -/
structure ProcInfo where
  pid : Nat
  pname : String
  exe : String := ""
deriving DecidableEq, Repr

/-- Whether `needle` is a prefix of `hay` (character lists). -/
def isPrefixAux : List Char → List Char → Bool
  | [], _ => true
  | _ :: _, [] => false
  | a :: as, b :: bs => a = b && isPrefixAux as bs

/-- Whether `needle` occurs as a contiguous run inside `hay`. -/
def hasSubAux (needle : List Char) : List Char → Bool
  | [] => needle.isEmpty
  | c :: rest => isPrefixAux needle (c :: rest) || hasSubAux needle rest

/-- The Python substring test `needle in hay`. -/
def pyIn (needle hay : String) : Bool := hasSubAux needle.toList hay.toList

/-- `os.path.basename` on Windows: the part after the last `/` or `\`. -/
def pyBasename (p : String) : String :=
  match p.toList.foldl
      (fun acc c => if c = '/' ∨ c = '\\' then [] else acc ++ [c]) [] with
  | cs => String.mk cs

/-- `find_running_processes(app_name)` (lines 872-893): keep the processes
whose name, or whose executable basename, contains the lowered query as a
substring.  The process table is the explicit parameter `procs`. -/
def findRunningProcesses (procs : List ProcInfo) (app_name : String) :
    List ProcInfo :=
  procs.filter (fun pr =>
    pyIn app_name.toLower pr.pname.toLower ||
      (pr.exe != "" && pyIn app_name.toLower (pyBasename pr.exe).toLower))

/-- The search-term list of lines 901-910: the lowered query, plus, when the
matcher finds a best match, its display name, cleaned name, and executable
basename with every `.exe` removed. -/
def searchTerms (rfn pfn tfn : String → String → Nat)
    (apps : List Application) (app_name : String) : List String :=
  match find_application rfn pfn tfn app_name 70 apps with
  | [] => [app_name.toLower]
  | (best, _) :: _ =>
      [app_name.toLower, best.display_name.toLower, best.name.toLower,
        ((pyBasename best.path).toLower).replace ".exe" ""]

/-- Lines 912-923: gather the matching processes of every search term, then
deduplicate by pid through a dict (`unique_processes[proc.pid] = proc`),
keeping dict insertion order. -/
def selectedProcesses (rfn pfn tfn : String → String → Nat)
    (apps : List Application) (procs : List ProcInfo) (app_name : String) :
    List ProcInfo :=
  (((searchTerms rfn pfn tfn apps app_name).foldl
        (fun acc t => acc ++ findRunningProcesses procs t) []).foldl
      (fun m pr => alSet m pr.pid pr) []).map (fun p => p.2)

/-- What happens when one selected process is asked to terminate
(lines 936-958): it exits within the 3s graceful wait, or only after the
force kill, or the force kill also times out, or psutil raises
`NoSuchProcess` / `AccessDenied` / some other error. -/
inductive CloseOutcome where
  | graceful
  | forced
  | forcedTimeout
  | noSuchProcess
  | accessDenied
  | otherError
deriving DecidableEq, Repr

/-- The outcomes after which the process is appended to `closed_processes`
(lines 947 and 953); every other outcome lands in `failed_processes`. -/
def outcomeCloses : CloseOutcome → Bool
  | .graceful => true
  | .forced => true
  | _ => false

/-- The exception text interpolated into a failed entry (lines 955-958). -/
def failText : CloseOutcome → String
  | .forcedTimeout => "TimeoutExpired"
  | .noSuchProcess => "NoSuchProcess"
  | .accessDenied => "AccessDenied"
  | _ => "error"

/-- A `failed_processes` entry: `f"{proc.name()} ({e})"`. -/
def failEntry (outcome : ProcInfo → CloseOutcome) (pr : ProcInfo) : String :=
  pr.pname ++ " (" ++ failText (outcome pr) ++ ")"

/-- The dict returned by `close_application_by_name` (lines 925-987).
Branches of the Python code that omit a list key keep the default `[]`. -/
structure CloseResult where
  success : Bool
  app_name : String
  closed_processes : List String := []
  failed_processes : List String := []
  message : String := ""
deriving DecidableEq, Repr

/-- `close_application_by_name` (lines 895-987).  `outcome` abstracts what
the OS does when each process is terminated; everything else follows the
source: select processes from the search terms, report failure when none are
found, otherwise close them one by one, collecting per-process results, and
succeed exactly when `closed_processes` is nonempty. -/
def close_application_by_name (outcome : ProcInfo → CloseOutcome)
    (rfn pfn tfn : String → String → Nat) (apps : List Application)
    (procs : List ProcInfo) (app_name : String) : CloseResult :=
  let sel := selectedProcesses rfn pfn tfn apps procs app_name
  if sel.isEmpty then
    { success := false
      app_name := app_name
      message := "No running processes found for " ++ app_name }
  else
    let cf := sel.foldl
      (fun acc pr =>
        if outcomeCloses (outcome pr) then (acc.1 ++ [pr.pname], acc.2)
        else (acc.1, acc.2 ++ [failEntry outcome pr]))
      ([], [])
    if !cf.1.isEmpty then
      { success := true
        app_name := app_name
        closed_processes := cf.1
        failed_processes := cf.2
        message := "Closed " ++ String.intercalate ", " cf.1 }
    else
      { success := false
        app_name := app_name
        failed_processes := cf.2
        message := "Failed to close any processes for " ++ app_name }

/-! ### Concrete instances used by counterexamples and witnesses -/

/-- A valid executable entry with a five-character description. -/
def appA : Application :=
  { name := "x", display_name := "X", path := "", launch_command := "x",
    app_type := "exe", description := "abcde" }

/-- A valid executable entry with the same dedup key as `appA` and a
three-character description. -/
def appB : Application :=
  { name := "x", display_name := "X2", path := "", launch_command := "x2",
    app_type := "exe", description := "abc" }

/-- One well-behaved scanner contributing a single entry. -/
def scannersW : List Scanner := [⟨[("system_x", appA)], false⟩]

/-- A well-behaved scanner followed by a scanner that raises immediately. -/
def scannersFailW : List Scanner := [⟨[("system_x", appA)], false⟩, ⟨[], true⟩]

/-- A snapshot file that exists, is fresh, and fails to read or parse. -/
def cacheCorruptFresh : CacheState := ⟨true, 0, none⟩

/-- No snapshot file. -/
def cacheAbsent : CacheState := ⟨false, 0, none⟩

/-- A filesystem in which both the executable path and the install location
of `appC9` exist as plain files (the install location is not a directory). -/
def fsW : String → Option FsNode := fun p =>
  if p = "C:\\x\\a.exe" ∨ p = "C:\\x\\f.txt" then some FsNode.file else none

/-- An executable entry whose install location exists but is a file. -/
def appC9 : Application :=
  { name := "x", display_name := "X", path := "C:\\x\\a.exe",
    launch_command := "run", app_type := "exe",
    install_location := "C:\\x\\f.txt" }

/-- A constant similarity measure, for witnesses. -/
def constScore : String → String → Nat := fun _ _ => 60

/-- The all-zero similarity measure, for witnesses. -/
def zeroScore : String → String → Nat := fun _ _ => 0

/-! ## Theorems -/

/-! ### Association-list lemmas -/

theorem alGet_eq_none_iff {κ α : Type} [DecidableEq κ] (m : List (κ × α))
    (k : κ) : alGet m k = none ↔ k ∉ m.map Prod.fst := by
  induction m with
  | nil => simp [alGet]
  | cons p t ih =>
      by_cases h : p.1 = k
      · simp [alGet, h]
      · simp [alGet, h, ih, Ne.symm h]

theorem alGet_isSome_iff {κ α : Type} [DecidableEq κ] (m : List (κ × α))
    (k : κ) : (alGet m k).isSome = true ↔ k ∈ m.map Prod.fst := by
  rw [Option.isSome_iff_ne_none, ne_eq, alGet_eq_none_iff, not_not]

theorem keys_alSet {κ α : Type} [DecidableEq κ] (m : List (κ × α)) (k : κ)
    (v : α) :
    (alSet m k v).map Prod.fst =
      if k ∈ m.map Prod.fst then m.map Prod.fst
      else m.map Prod.fst ++ [k] := by
  induction m with
  | nil => simp [alSet]
  | cons p t ih =>
      by_cases h : p.1 = k
      · simp [alSet, h]
      · simp only [alSet, if_neg h, List.map_cons]
        rw [ih]
        by_cases hn : k ∈ t.map Prod.fst
        · simp [hn, Ne.symm h]
        · simp [hn, Ne.symm h]

theorem nodup_keys_alSet {κ α : Type} [DecidableEq κ] (m : List (κ × α))
    (k : κ) (v : α) (h : (m.map Prod.fst).Nodup) :
    ((alSet m k v).map Prod.fst).Nodup := by
  rw [keys_alSet]
  by_cases hn : k ∈ m.map Prod.fst
  · simpa [hn] using h
  · simp only [hn, if_neg]
    simp [List.nodup_append, h, hn]

theorem alGet_alSet_self {κ α : Type} [DecidableEq κ] (m : List (κ × α))
    (k : κ) (v : α) : alGet (alSet m k v) k = some v := by
  induction m with
  | nil => simp [alSet, alGet]
  | cons p t ih =>
      by_cases h : p.1 = k
      · simp [alSet, alGet, h]
      · simp [alSet, alGet, h, ih]

theorem alSet_alSet {κ α : Type} [DecidableEq κ] (m : List (κ × α)) (k : κ)
    (v v' : α) : alSet (alSet m k v) k v' = alSet m k v' := by
  induction m with
  | nil => simp [alSet]
  | cons p t ih =>
      by_cases h : p.1 = k
      · simp [alSet, h]
      · simp [alSet, h, ih]

theorem mem_alSet_self {κ α : Type} [DecidableEq κ] (m : List (κ × α))
    (k : κ) (v : α) : (k, v) ∈ alSet m k v := by
  induction m with
  | nil => simp [alSet]
  | cons p t ih =>
      by_cases h : p.1 = k
      · simp [alSet, h]
      · simp [alSet, h, ih]

theorem mem_alSet_of_ne {κ α : Type} [DecidableEq κ] {m : List (κ × α)}
    {k1 : κ} {v1 : α} (k : κ) (v : α) (h : (k1, v1) ∈ m) (hne : k1 ≠ k) :
    (k1, v1) ∈ alSet m k v := by
  induction m with
  | nil => cases h
  | cons p t ih =>
      rcases List.mem_cons.1 h with h1 | h1
      · have hp : ¬p.1 = k := by rw [← h1]; exact hne
        rw [alSet, if_neg hp, ← h1]
        exact List.mem_cons_self _ _
      · by_cases hp : p.1 = k
        · rw [alSet, if_pos hp]
          exact List.mem_cons_of_mem _ h1
        · rw [alSet, if_neg hp]
          exact List.mem_cons_of_mem _ (ih h1)

theorem mem_of_mem_alSet {κ α : Type} [DecidableEq κ] {m : List (κ × α)}
    {k : κ} {v : α} {q : κ × α} (h : q ∈ alSet m k v) : q ∈ m ∨ q = (k, v) := by
  induction m with
  | nil => simpa [alSet] using h
  | cons p t ih =>
      by_cases hp : p.1 = k
      · rw [alSet, if_pos hp] at h
        rcases List.mem_cons.1 h with h1 | h1
        · exact Or.inr h1
        · exact Or.inl (List.mem_cons_of_mem _ h1)
      · rw [alSet, if_neg hp] at h
        rcases List.mem_cons.1 h with h1 | h1
        · exact Or.inl (by rw [h1]; exact List.mem_cons_self _ _)
        · rcases ih h1 with h2 | h2
          · exact Or.inl (List.mem_cons_of_mem _ h2)
          · exact Or.inr h2

/-! ### C10 — empty catalog -/

/-- C10: for every query string, threshold, and similarity measures, an empty
application catalog makes `find_application` return the empty list. -/
theorem c10_find_application_empty_catalog (rfn pfn tfn : String → String → Nat)
    (query : String) (threshold : Nat) :
    find_application rfn pfn tfn query threshold [] = [] := rfl

/-! ### C9 — launch working-directory dispatch -/

/-- C9 fails as stated: `launch_application` checks only that the install
location exists (`os.path.exists`, line 788), not that it is a directory.
Here the entry is launched with its install location as working directory
although that location is a plain file, contradicting the claim that the
install-location working directory is used exactly when the location exists
and is a directory. -/
theorem c9_counterexample :
    (launchApplicationSpawn fsW appC9).cwd = some appC9.install_location ∧
    osPathIsDir fsW appC9.install_location = false ∧
    appC9.app_type = "exe" := by decide

/-- C9 amended: for executable/shortcut entries, the launch command is always
attempted verbatim, and the install location is used as working directory
exactly when the path is nonempty and exists and the install location is
nonempty and exists — whether or not it is a directory. -/
theorem c9_amended_launch_cwd (fs : String → Option FsNode) (a : Application)
    (h : a.app_type = "exe" ∨ a.app_type = "shortcut") :
    (launchApplicationSpawn fs a).cmd = a.launch_command ∧
    ((launchApplicationSpawn fs a).cwd = some a.install_location ↔
      (a.path ≠ "" ∧ osPathExists fs a.path = true ∧
        a.install_location ≠ "" ∧ osPathExists fs a.install_location = true)) := by
  have h1 : a.app_type ≠ "uwp" := by
    rcases h with h | h <;> rw [h] <;> decide
  have h2 : a.app_type ≠ "steam" := by
    rcases h with h | h <;> rw [h] <;> decide
  have h3 : a.app_type ≠ "system" := by
    rcases h with h | h <;> rw [h] <;> decide
  unfold launchApplicationSpawn
  rw [if_neg h1, if_neg h2, if_neg h3]
  by_cases hp : a.path ≠ "" ∧ osPathExists fs a.path = true
  · rw [if_pos (by simpa using hp)]
    by_cases hl : a.install_location ≠ "" ∧
        osPathExists fs a.install_location = true
    · rw [if_pos (by simpa using hl)]
      simp [hp, hl]
    · rw [if_neg (by simpa using hl)]
      constructor
      · rfl
      · simp only [SpawnCall.mk.injEq]
        constructor
        · intro hc; cases hc
        · intro hc; exact absurd ⟨hc.2.2.1, hc.2.2.2⟩ hl
  · rw [if_neg (by simpa using hp)]
    constructor
    · rfl
    · simp only [SpawnCall.mk.injEq]
      constructor
      · intro hc; cases hc
      · intro hc; exact absurd ⟨hc.1, hc.2.1⟩ hp

/-- Witness for C9: on the concrete filesystem `fsW`, the entry `appC9` is
launched with its (existing, non-directory) install location as the working
directory. -/
theorem c9_amended_witness :
    (launchApplicationSpawn fsW appC9).cwd = some appC9.install_location :=
  ((c9_amended_launch_cwd fsW appC9 (Or.inl rfl)).2).mpr (by decide)

/-! ### C4 — cache lifecycle -/

/-- C4 fails as stated: a snapshot that exists and is fresh but fails to
parse is NOT treated like an absent snapshot.  `_is_cache_valid` checks only
existence and age, so `discover_all_applications` takes the cache branch,
`_load_from_cache` swallows the parse error and returns an empty catalog, and
no rediscovery pass is run — while with the snapshot absent the same call
runs a full discovery pass and finds the scanner entry. -/
theorem c4_counterexample :
    cacheCorruptFresh.fileExists = true ∧ cacheCorruptFresh.parsed = none ∧
    discoverAllApplications true true cacheCorruptFresh scannersW =
      (false, []) ∧
    (discoverAllApplications true true cacheAbsent scannersW).1 = true ∧
    discoverAllApplications true true cacheCorruptFresh scannersW ≠
      discoverAllApplications true true cacheAbsent scannersW := by decide

/-- C4 amended: the cached catalog is returned only when caching is enabled
and a snapshot exists with age strictly below the 6-hour TTL; in that branch
a read/parse failure is caught and yields an empty catalog with no error and
NO rediscovery; a rediscovery pass runs exactly when the snapshot is absent
or stale (or caching is disabled). -/
theorem c4_amended_cache_behavior (useCache : Bool) (c : CacheState)
    (ss : List Scanner) :
    ((discoverAllApplications true useCache c ss).1 = false →
      useCache = true ∧ c.fileExists = true ∧
        c.ageSeconds < cacheDurationSeconds) ∧
    (c.parsed = none → useCache = true → c.fileExists = true →
      c.ageSeconds < cacheDurationSeconds →
      discoverAllApplications true useCache c ss = (false, [])) ∧
    (isCacheValid c = false →
      discoverAllApplications true useCache c ss =
        (true, fullDiscoveryPass ss)) := by
  refine ⟨?_, ?_, ?_⟩
  · intro h
    by_cases hv : (useCache && isCacheValid c) = true
    · rcases Bool.and_eq_true_iff.1 hv with ⟨hu, hvv⟩
      rw [isCacheValid, Bool.and_eq_true_iff] at hvv
      exact ⟨hu, hvv.1, of_decide_eq_true hvv.2⟩
    · rw [discoverAllApplications] at h
      simp only [Bool.not_true, Bool.false_eq_true, if_false] at h
      rw [if_neg (by simpa using hv)] at h
      simp at h
  · intro hp hu he ha
    have hv : (useCache && isCacheValid c) = true := by
      simp [hu, isCacheValid, he, ha]
    rw [discoverAllApplications]
    simp only [Bool.not_true, Bool.false_eq_true, if_false]
    rw [if_pos (by simpa using hv), loadFromCache, hp]
  · intro hv
    rw [discoverAllApplications]
    simp only [Bool.not_true, Bool.false_eq_true, if_false]
    rw [if_neg (by simp [hv])]

/-- Witness for C4: applying the amended theorem to the fresh-but-corrupt
snapshot returns the empty catalog without rediscovery. -/
theorem c4_amended_witness :
    discoverAllApplications true true cacheCorruptFresh scannersW =
      (false, []) :=
  (c4_amended_cache_behavior true cacheCorruptFresh scannersW).2.1
    rfl rfl rfl (by decide)

/-! ### C5 — dedup tie-break and order independence -/

/-- C5 fails as stated: two valid non-shortcut entries sharing the dedup key
give different catalogs depending on processing order (the later entry always
wins because its `app_type` is not `"shortcut"`, regardless of description
length), while the spec tie-break rule says the longer description (`appA`)
must win either way. -/
theorem c5_counterexample :
    processedValues [appA, appB] = [appB] ∧
    processedValues [appB, appA] = [appA] ∧
    specTieBreak appA appB = appA ∧ specTieBreak appB appA = appA ∧
    appB ≠ appA := by decide

/-- C5 amended: when two valid entries share a dedup key, the second one
processed replaces the first exactly when it has a strictly longer
description OR its kind is not shortcut (the disjunction is the code's
line 661); in particular with two non-shortcut entries the later one always
wins and processing order does affect the catalog. -/
theorem c5_amended_replacement_rule (a b : Application)
    (ha : ¬(a.name = "" ∨ a.launch_command = ""))
    (hb : ¬(b.name = "" ∨ b.launch_command = ""))
    (hk : appKey b = appKey a) :
    processedValues [a, b] =
      [if a.description.length < b.description.length ∨
          b.app_type ≠ "shortcut" then b else a] := by
  by_cases hc : a.description.length < b.description.length ∨
      b.app_type ≠ "shortcut"
  · rw [if_pos hc]
    simp [processedValues, processStep, alGet, alSet, ha, hb, hk, hc]
  · rw [if_neg hc]
    simp [processedValues, processStep, alGet, alSet, ha, hb, hk, hc]

/-- Witness for C5: the amended rule applied to the concrete pair
`appA`, `appB` (same key, both executables, shorter description second)
keeps the later entry `appB`. -/
theorem c5_amended_witness : processedValues [appA, appB] = [appB] := by
  rw [c5_amended_replacement_rule appA appB (by decide) (by decide)
    (by decide)]
  decide

/-! ### C2 — scanner isolation -/

theorem mem_dictInsertList_of_not_key (l : List (String × Application))
    (m : List (String × Application)) (kv : String × Application)
    (h : kv ∈ m) (hk : kv.1 ∉ l.map Prod.fst) : kv ∈ dictInsertList m l := by
  induction l generalizing m with
  | nil => simpa [dictInsertList] using h
  | cons p t ih =>
      rw [List.map_cons] at hk
      have hk1 : kv.1 ≠ p.1 := by
        intro he
        exact hk (by rw [he]; exact List.mem_cons_self p.1 _)
      have hk2 : kv.1 ∉ t.map Prod.fst := by
        intro he
        exact hk (List.mem_cons_of_mem _ he)
      rw [dictInsertList, List.foldl_cons]
      exact ih (alSet m p.1 p.2) (by
        rcases kv with ⟨k1, v1⟩
        exact mem_alSet_of_ne p.1 p.2 h hk1) hk2

theorem mem_dictInsertList_self (l : List (String × Application))
    (m : List (String × Application)) (kv : String × Application)
    (hnd : (l.map Prod.fst).Nodup) (hkv : kv ∈ l) : kv ∈ dictInsertList m l := by
  induction l generalizing m with
  | nil => cases hkv
  | cons p t ih =>
      rw [List.map_cons, List.nodup_cons] at hnd
      rw [dictInsertList, List.foldl_cons]
      rcases List.mem_cons.1 hkv with h1 | h1
      · refine mem_dictInsertList_of_not_key t (alSet m p.1 p.2) kv ?_ ?_
        · rw [h1]
          exact mem_alSet_self m p.1 p.2
        · rw [h1]
          exact hnd.1
      · exact ih (alSet m p.1 p.2) hnd.2 h1

theorem mem_foldScanners_of_not_key (t : List Scanner)
    (m : List (String × Application)) (kv : String × Application)
    (h : kv ∈ m)
    (hk : kv.1 ∉ ((t.map Scanner.inserts).flatten).map Prod.fst) :
    kv ∈ t.foldl (fun m s => (scanExec m s).1) m := by
  induction t generalizing m with
  | nil => simpa using h
  | cons s1 t1 ih =>
      rw [List.map_cons, List.flatten_cons, List.map_append] at hk
      rw [List.foldl_cons]
      exact ih (dictInsertList m s1.inserts)
        (mem_dictInsertList_of_not_key s1.inserts m kv h
          (fun he => hk (List.mem_append_left _ he)))
        (fun he => hk (List.mem_append_right _ he))

theorem mem_discoveryFold (ss : List Scanner) (m : List (String × Application))
    (hnd : (((ss.map Scanner.inserts).flatten).map Prod.fst).Nodup)
    (s : Scanner) (hs : s ∈ ss) (kv : String × Application)
    (hkv : kv ∈ s.inserts) :
    kv ∈ ss.foldl (fun m s => (scanExec m s).1) m := by
  induction ss generalizing m with
  | nil => cases hs
  | cons s0 t ih =>
      rw [List.map_cons, List.flatten_cons, List.map_append,
        List.nodup_append] at hnd
      rcases hnd with ⟨hnd1, hnd2, hdisj⟩
      rw [List.foldl_cons]
      rcases List.mem_cons.1 hs with h1 | h1
      · subst h1
        exact mem_foldScanners_of_not_key t (dictInsertList m s.inserts) kv
          (mem_dictInsertList_self s.inserts m kv hnd1 hkv)
          (hdisj (List.mem_map_of_mem Prod.fst hkv))
      · exact ih (dictInsertList m s0.inserts) hnd2 h1

/-- C2: when one scanner raises (here: any `Scanner` with `fails = true`, no
matter where it sits in the list), the discovery loop still completes as a
total function and its result contains every entry contributed by every other
scanner — scanner failure is confined by the per-scanner `try`/`except` of
lines 106-115.  Entries are assumed to carry pairwise distinct synthetic ids,
as the per-source id prefixes (`registry_`, `startmenu_`, ...) arrange. -/
theorem c2_scanner_isolation (ss : List Scanner) (sf s : Scanner)
    (kv : String × Application)
    (hnd : (((ss.map Scanner.inserts).flatten).map Prod.fst).Nodup)
    (hsf : sf ∈ ss) (hfail : sf.fails = true)
    (hs : s ∈ ss) (hkv : kv ∈ s.inserts) :
    kv ∈ discoveryLoop ss :=
  mem_discoveryFold ss [] hnd s hs kv hkv

/-- Witness for C2: with a healthy scanner followed by a raising scanner, the
healthy scanner's entry is in the final accumulator. -/
theorem c2_witness : ("system_x", appA) ∈ discoveryLoop scannersFailW :=
  c2_scanner_isolation scannersFailW ⟨[], true⟩ ⟨[("system_x", appA)], false⟩
    ("system_x", appA) (by decide) (by decide) rfl (by decide) (by decide)

/-! ### C1 — catalog validity and key uniqueness -/

theorem processStep_entries (m : List ((String × String) × Application))
    (a : Application)
    (h : ∀ p ∈ m, appKey p.2 = p.1 ∧ p.2.name ≠ "" ∧ p.2.launch_command ≠ "") :
    ∀ p ∈ processStep m a,
      appKey p.2 = p.1 ∧ p.2.name ≠ "" ∧ p.2.launch_command ≠ "" := by
  intro p hp
  rw [processStep] at hp
  by_cases hv : a.name = "" ∨ a.launch_command = ""
  · rw [if_pos hv] at hp
    exact h p hp
  · rw [if_neg hv] at hp
    push_neg at hv
    have hnew : ∀ q ∈ alSet m (appKey a) a,
        appKey q.2 = q.1 ∧ q.2.name ≠ "" ∧ q.2.launch_command ≠ "" := by
      intro q hq
      rcases mem_of_mem_alSet hq with h1 | h1
      · exact h q h1
      · rw [h1]
        exact ⟨rfl, hv.1, hv.2⟩
    split at hp
    · exact hnew p hp
    · split at hp
      · exact hnew p hp
      · exact h p hp

theorem processStep_keys_nodup (m : List ((String × String) × Application))
    (a : Application) (h : (m.map Prod.fst).Nodup) :
    ((processStep m a).map Prod.fst).Nodup := by
  rw [processStep]
  by_cases hv : a.name = "" ∨ a.launch_command = ""
  · rw [if_pos hv]
    exact h
  · rw [if_neg hv]
    split
    · exact nodup_keys_alSet m _ a h
    · split
      · exact nodup_keys_alSet m _ a h
      · exact h

theorem processStep_key_mem (m : List ((String × String) × Application))
    (a : Application) (k : String × String) :
    k ∈ (processStep m a).map Prod.fst ↔
      k ∈ m.map Prod.fst ∨
        (¬(a.name = "" ∨ a.launch_command = "") ∧ appKey a = k) := by
  rw [processStep]
  by_cases hv : a.name = "" ∨ a.launch_command = ""
  · rw [if_pos hv]
    simp [hv]
  · rw [if_neg hv]
    have hsame : appKey a ∈ m.map Prod.fst →
        (k ∈ m.map Prod.fst ↔
          k ∈ m.map Prod.fst ∨
            (¬(a.name = "" ∨ a.launch_command = "") ∧ appKey a = k)) := by
      intro hmem
      constructor
      · exact Or.inl
      · rintro (h1 | ⟨h1, h2⟩)
        · exact h1
        · exact h2 ▸ hmem
    have hset : appKey a ∈ m.map Prod.fst →
        (k ∈ (alSet m (appKey a) a).map Prod.fst ↔
          k ∈ m.map Prod.fst ∨
            (¬(a.name = "" ∨ a.launch_command = "") ∧ appKey a = k)) := by
      intro hmem
      rw [keys_alSet, if_pos hmem]
      exact hsame hmem
    split
    · rename_i hg
      have hnot : appKey a ∉ m.map Prod.fst := (alGet_eq_none_iff _ _).1 hg
      rw [keys_alSet, if_neg hnot, List.mem_append]
      simp only [List.mem_singleton]
      constructor
      · rintro (h1 | h1)
        · exact Or.inl h1
        · exact Or.inr ⟨hv, h1.symm⟩
      · rintro (h1 | ⟨h1, h2⟩)
        · exact Or.inl h1
        · exact Or.inr h2.symm
    · rename_i existing hg
      have hmem : appKey a ∈ m.map Prod.fst := by
        rw [← alGet_isSome_iff, hg]
        rfl
      split
      · exact hset hmem
      · exact hsame hmem

theorem foldl_processStep_key_mem (l : List Application) :
    ∀ (m : List ((String × String) × Application)) (k : String × String),
      (k ∈ (l.foldl processStep m).map Prod.fst ↔
        k ∈ m.map Prod.fst ∨
          ∃ a, a ∈ l ∧ ¬(a.name = "" ∨ a.launch_command = "") ∧
            appKey a = k) := by
  induction l with
  | nil => simp
  | cons a t ih =>
      intro m k
      rw [List.foldl_cons, ih (processStep m a) k, processStep_key_mem]
      simp only [List.mem_cons]
      constructor
      · rintro ((h1 | ⟨h1, h2⟩) | ⟨b, hb, h1, h2⟩)
        · exact Or.inl h1
        · exact Or.inr ⟨a, Or.inl rfl, h1, h2⟩
        · exact Or.inr ⟨b, Or.inr hb, h1, h2⟩
      · rintro (h1 | ⟨b, (hb | hb), h1, h2⟩)
        · exact Or.inl (Or.inl h1)
        · exact Or.inl (Or.inr ⟨hb ▸ h1, hb ▸ h2⟩)
        · exact Or.inr ⟨b, hb, h1, h2⟩

theorem nodup_countP_decide {β : Type} [DecidableEq β] (l : List β) (k : β)
    (h : l.Nodup) :
    l.countP (fun x => decide (x = k)) = if k ∈ l then 1 else 0 := by
  induction l with
  | nil => simp
  | cons a t ih =>
      rw [List.nodup_cons] at h
      rw [List.countP_cons, ih h.2]
      by_cases ha : a = k
      · subst ha
        simp [h.1]
      · simp [ha, Ne.symm ha]

/-- C1: for every input entry list and every identity key, the deduplicated
catalog built by `_process_discovered_applications` contains no entry with an
empty name or empty launch command, its keys (`name`, lowercased `path`) are
pairwise distinct, and it holds exactly one entry for a key exactly when some
valid input entry carried that key — no matter how many entries shared it. -/
theorem c1_catalog_valid_unique (l : List Application) (k : String × String) :
    ((processedValues l).all
        (fun a => !(a.name == "") && !(a.launch_command == ""))) = true ∧
    ((processedValues l).map appKey).Nodup ∧
    (processedValues l).countP (fun a => decide (appKey a = k)) =
      (if ∃ a, a ∈ l ∧ ¬(a.name = "" ∨ a.launch_command = "") ∧ appKey a = k
        then 1 else 0) := by
  have h_ent : ∀ p ∈ l.foldl processStep [],
      appKey p.2 = p.1 ∧ p.2.name ≠ "" ∧ p.2.launch_command ≠ "" := by
    have : ∀ (t : List Application)
        (m : List ((String × String) × Application)),
        (∀ p ∈ m, appKey p.2 = p.1 ∧ p.2.name ≠ "" ∧
          p.2.launch_command ≠ "") →
        ∀ p ∈ t.foldl processStep m,
          appKey p.2 = p.1 ∧ p.2.name ≠ "" ∧ p.2.launch_command ≠ "" := by
      intro t
      induction t with
      | nil => intro m hm; exact hm
      | cons a t2 ih =>
          intro m hm
          exact ih (processStep m a) (processStep_entries m a hm)
    exact this l [] (by intro p hp; cases hp)
  have h_nd : ((l.foldl processStep []).map Prod.fst).Nodup := by
    have : ∀ (t : List Application)
        (m : List ((String × String) × Application)),
        (m.map Prod.fst).Nodup →
        ((t.foldl processStep m).map Prod.fst).Nodup := by
      intro t
      induction t with
      | nil => intro m hm; exact hm
      | cons a t2 ih =>
          intro m hm
          exact ih (processStep m a) (processStep_keys_nodup m a hm)
    exact this l [] (by simp)
  have hmapkeys : (processedValues l).map appKey =
      (l.foldl processStep []).map Prod.fst := by
    rw [processedValues, List.map_map]
    exact List.map_congr_left (fun p hp => (h_ent p hp).1)
  refine ⟨?_, ?_, ?_⟩
  · rw [List.all_eq_true]
    intro a ha
    rcases List.mem_map.1 ha with ⟨p, hp, rfl⟩
    have h2 := h_ent p hp
    simp [h2.2.1, h2.2.2]
  · rw [hmapkeys]
    exact h_nd
  · have hc1 : (processedValues l).countP (fun a => decide (appKey a = k)) =
        ((processedValues l).map appKey).countP
          (fun x => decide (x = k)) := by
      rw [List.countP_map]
      rfl
    rw [hc1, hmapkeys,
      nodup_countP_decide ((l.foldl processStep []).map Prod.fst) k h_nd]
    have hiff := foldl_processStep_key_mem l [] k
    simp only [List.map_nil, List.not_mem_nil, false_or] at hiff
    by_cases hmem : k ∈ (l.foldl processStep []).map Prod.fst
    · rw [if_pos hmem, if_pos (hiff.1 hmem)]
    · rw [if_neg hmem, if_neg (fun hc => hmem (hiff.2 hc))]

/-! ### C6 — per-process close outcomes -/

theorem closeFold (outcome : ProcInfo → CloseOutcome) :
    ∀ (sel : List ProcInfo) (c f : List String),
      sel.foldl
          (fun acc pr =>
            if outcomeCloses (outcome pr) then (acc.1 ++ [pr.pname], acc.2)
            else (acc.1, acc.2 ++ [failEntry outcome pr])) (c, f) =
        (c ++ (sel.filter
            (fun pr => outcomeCloses (outcome pr))).map ProcInfo.pname,
          f ++ (sel.filter
            (fun pr => !outcomeCloses (outcome pr))).map (failEntry outcome)) := by
  intro sel
  induction sel with
  | nil => intro c f; simp
  | cons pr t ih =>
      intro c f
      rw [List.foldl_cons]
      cases ho : outcomeCloses (outcome pr) with
      | true =>
          rw [if_pos rfl]
          rw [ih (c ++ [pr.pname]) f]
          simp [List.filter_cons, ho]
      | false =>
          rw [if_neg Bool.false_ne_true]
          rw [ih c (f ++ [failEntry outcome pr])]
          simp [List.filter_cons, ho]

/-- C6: the close-by-name result succeeds exactly when at least one selected
process was closed, and the closed/failed name lists partition the selected
processes by their individual outcomes — one process failing (already exited,
access denied, force-kill timeout) never prevents the rest from being
processed. -/
theorem c6_close_partition (outcome : ProcInfo → CloseOutcome)
    (rfn pfn tfn : String → String → Nat) (apps : List Application)
    (procs : List ProcInfo) (app_name : String) :
    ((close_application_by_name outcome rfn pfn tfn apps procs
          app_name).success = true ↔
      (close_application_by_name outcome rfn pfn tfn apps procs
          app_name).closed_processes ≠ []) ∧
    (close_application_by_name outcome rfn pfn tfn apps procs
        app_name).closed_processes =
      ((selectedProcesses rfn pfn tfn apps procs app_name).filter
          (fun pr => outcomeCloses (outcome pr))).map ProcInfo.pname ∧
    (close_application_by_name outcome rfn pfn tfn apps procs
        app_name).failed_processes =
      ((selectedProcesses rfn pfn tfn apps procs app_name).filter
          (fun pr => !outcomeCloses (outcome pr))).map (failEntry outcome) := by
  have hfold := closeFold outcome
    (selectedProcesses rfn pfn tfn apps procs app_name) [] []
  rw [List.nil_append, List.nil_append] at hfold
  by_cases hempty :
      (selectedProcesses rfn pfn tfn apps procs app_name).isEmpty = true
  · have hnil : selectedProcesses rfn pfn tfn apps procs app_name = [] :=
      List.isEmpty_iff.1 hempty
    simp only [close_application_by_name, hnil]
    simp
  · simp only [close_application_by_name, if_neg hempty, hfold]
    by_cases hc : ((selectedProcesses rfn pfn tfn apps procs app_name).filter
        (fun pr => outcomeCloses (outcome pr))).map ProcInfo.pname = []
    · simp [hc]
    · simp [hc]

/-! ### C3 — matcher pipeline: candidate-level code vs entry-level spec -/

theorem foldl_max_shift (l : List Nat) (a : Nat) :
    l.foldl max a = max a (l.foldl max 0) := by
  induction l generalizing a with
  | nil => simp
  | cons b t ih =>
      rw [List.foldl_cons, List.foldl_cons, ih (max a b), ih (max 0 b),
        Nat.zero_max, max_assoc]

theorem mem_le_foldl_max {l : List Nat} {s : Nat} (h : s ∈ l) :
    s ≤ l.foldl max 0 := by
  induction l with
  | nil => cases h
  | cons b t ih =>
      rw [List.foldl_cons, foldl_max_shift, Nat.zero_max]
      rcases List.mem_cons.1 h with h1 | h1
      · rw [h1]
        exact le_max_left _ _
      · exact le_trans (ih h1) (le_max_right _ _)

theorem foldl_max_mem {l : List Nat} (h : l ≠ []) : l.foldl max 0 ∈ l := by
  induction l with
  | nil => exact absurd rfl h
  | cons b t ih =>
      rw [List.foldl_cons, foldl_max_shift, Nat.zero_max]
      cases t with
      | nil => simp
      | cons c t2 =>
          rcases le_total b ((c :: t2).foldl max 0) with h1 | h1
          · rw [max_eq_right h1]
            exact List.mem_cons_of_mem _ (ih (by simp))
          · rw [max_eq_left h1]
            exact List.mem_cons_self _ _

theorem foldl_max_le {l : List Nat} {b : Nat} (h : ∀ s ∈ l, s ≤ b) :
    l.foldl max 0 ≤ b := by
  cases hl : l with
  | nil => simp
  | cons c t =>
      rw [← hl]
      exact h _ (foldl_max_mem (by rw [hl]; simp))

theorem filter_le_max_eq {t : Nat} {l : List Nat} (hne : l ≠ [])
    (h : t ≤ l.foldl max 0) :
    l.filter (fun s => decide (t ≤ s)) ≠ [] ∧
      (l.filter (fun s => decide (t ≤ s))).foldl max 0 = l.foldl max 0 := by
  have hmem : l.foldl max 0 ∈ l.filter (fun s => decide (t ≤ s)) :=
    List.mem_filter.2 ⟨foldl_max_mem hne, by simpa using h⟩
  refine ⟨fun hc => (by rw [hc] at hmem; cases hmem), le_antisymm ?_ ?_⟩
  · exact foldl_max_le (fun s hs =>
      mem_le_foldl_max (List.mem_filter.1 hs).1)
  · exact mem_le_foldl_max hmem

theorem filter_lt_nil {t : Nat} {l : List Nat} (h : l.foldl max 0 < t) :
    l.filter (fun s => decide (t ≤ s)) = [] := by
  induction l with
  | nil => rfl
  | cons b t2 ih =>
      rw [List.foldl_cons, foldl_max_shift, Nat.zero_max, max_lt_iff] at h
      rw [List.filter_cons, ih h.2]
      simp [Nat.not_le.2 h.1]

theorem dedupStep_none (m : List ((String × String) × (Application × Nat)))
    (p : Application × Nat) (hg : alGet m (matchKey p) = none) :
    dedupStep m p = alSet m (matchKey p) p := by
  simp only [dedupStep]
  rw [hg]

theorem dedupStep_lt (m : List ((String × String) × (Application × Nat)))
    (p q : Application × Nat) (hg : alGet m (matchKey p) = some q)
    (hlt : q.2 < p.2) : dedupStep m p = alSet m (matchKey p) p := by
  simp only [dedupStep]
  rw [hg]
  show (if q.2 < p.2 then alSet m (matchKey p) p else m) = alSet m (matchKey p) p
  rw [if_pos hlt]

theorem dedupStep_ge (m : List ((String × String) × (Application × Nat)))
    (p q : Application × Nat) (hg : alGet m (matchKey p) = some q)
    (hge : ¬q.2 < p.2) : dedupStep m p = m := by
  simp only [dedupStep]
  rw [hg]
  show (if q.2 < p.2 then alSet m (matchKey p) p else m) = m
  rw [if_neg hge]

theorem dedupStep_pair_none
    (m : List ((String × String) × (Application × Nat))) (a : Application)
    (s : Nat) (hg : alGet m (a.name, a.path) = none) :
    dedupStep m (a, s) = alSet m (a.name, a.path) (a, s) :=
  dedupStep_none m (a, s) hg

theorem dedupStep_pair_lt
    (m : List ((String × String) × (Application × Nat))) (a : Application)
    (s : Nat) (q : Application × Nat)
    (hg : alGet m (a.name, a.path) = some q) (hlt : q.2 < s) :
    dedupStep m (a, s) = alSet m (a.name, a.path) (a, s) :=
  dedupStep_lt m (a, s) q hg hlt

theorem dedupStep_pair_ge
    (m : List ((String × String) × (Application × Nat))) (a : Application)
    (s : Nat) (q : Application × Nat)
    (hg : alGet m (a.name, a.path) = some q) (hge : ¬q.2 < s) :
    dedupStep m (a, s) = m :=
  dedupStep_ge m (a, s) q hg hge

theorem dedupStep_fusion (m : List ((String × String) × (Application × Nat)))
    (a : Application) (s1 s2 : Nat) :
    dedupStep (dedupStep m (a, s1)) (a, s2) = dedupStep m (a, max s1 s2) := by
  cases hg : alGet m ((a.name, a.path)) with
  | none =>
      have e1 : dedupStep m (a, s1) = alSet m (a.name, a.path) (a, s1) :=
        dedupStep_pair_none m a s1 hg
      have h2 : alGet (alSet m (a.name, a.path) (a, s1)) (a.name, a.path) =
          some (a, s1) := alGet_alSet_self _ _ _
      by_cases hlt : s1 < s2
      · rw [e1, dedupStep_pair_lt _ a s2 (a, s1) h2 hlt, alSet_alSet,
          dedupStep_pair_none m a (max s1 s2) hg, Nat.max_eq_right hlt.le]
      · rw [e1, dedupStep_pair_ge _ a s2 (a, s1) h2 hlt,
          dedupStep_pair_none m a (max s1 s2) hg,
          Nat.max_eq_left (Nat.not_lt.1 hlt)]
  | some q =>
      by_cases h1 : q.2 < s1
      · have e1 : dedupStep m (a, s1) = alSet m (a.name, a.path) (a, s1) :=
          dedupStep_pair_lt m a s1 q hg h1
        have h2 : alGet (alSet m (a.name, a.path) (a, s1)) (a.name, a.path) =
            some (a, s1) := alGet_alSet_self _ _ _
        by_cases hlt : s1 < s2
        · rw [e1, dedupStep_pair_lt _ a s2 (a, s1) h2 hlt, alSet_alSet,
            dedupStep_pair_lt m a (max s1 s2) q hg
              (lt_of_lt_of_le h1 (le_max_left _ _)),
            Nat.max_eq_right hlt.le]
        · rw [e1, dedupStep_pair_ge _ a s2 (a, s1) h2 hlt,
            dedupStep_pair_lt m a (max s1 s2) q hg
              (lt_of_lt_of_le h1 (le_max_left _ _)),
            Nat.max_eq_left (Nat.not_lt.1 hlt)]
      · have e1 : dedupStep m (a, s1) = m := dedupStep_pair_ge m a s1 q hg h1
        rw [e1]
        by_cases h2 : q.2 < s2
        · rw [dedupStep_pair_lt m a s2 q hg h2,
            dedupStep_pair_lt m a (max s1 s2) q hg
              (lt_of_lt_of_le h2 (le_max_right _ _)),
            Nat.max_eq_right (le_trans (Nat.not_lt.1 h1) h2.le)]
        · rw [dedupStep_pair_ge m a s2 q hg h2,
            dedupStep_pair_ge m a (max s1 s2) q hg
              (by rw [Nat.not_lt]
                  exact Nat.max_le.2 ⟨Nat.not_lt.1 h1, Nat.not_lt.1 h2⟩)]

theorem foldl_max_cons (s : Nat) (l : List Nat) :
    (s :: l).foldl max 0 = max s (l.foldl max 0) := by
  rw [List.foldl_cons, foldl_max_shift, Nat.zero_max]

theorem foldl_dedup_pairs (a : Application) :
    ∀ (ss : List Nat) (m : List ((String × String) × (Application × Nat))),
      ss ≠ [] →
      (ss.map (fun s => (a, s))).foldl dedupStep m =
        dedupStep m (a, ss.foldl max 0) := by
  intro ss
  induction ss with
  | nil => intro m h; exact absurd rfl h
  | cons s t ih =>
      intro m _
      rw [List.map_cons, List.foldl_cons]
      cases t with
      | nil => simp
      | cons c t2 =>
          have hmax : ((s :: c :: t2 : List Nat)).foldl max 0 =
              max s ((c :: t2).foldl max 0) := foldl_max_cons s (c :: t2)
          rw [ih (dedupStep m (a, s)) (by simp), dedupStep_fusion, hmax]

theorem foldl_flatMap_eq {α β γ : Type} (f : γ → β → γ) (g : α → List β) :
    ∀ (l : List α) (m : γ),
      (l.flatMap g).foldl f m = l.foldl (fun m a => (g a).foldl f m) m := by
  intro l
  induction l with
  | nil => intro m; rfl
  | cons a t ih =>
      intro m
      rw [List.flatMap_cons, List.foldl_append, List.foldl_cons, ih]

theorem foldl_filterMap_eq {α β γ : Type} (g : α → Option β) (f : γ → β → γ) :
    ∀ (l : List α) (m : γ),
      (l.filterMap g).foldl f m =
        l.foldl (fun m a => match g a with | some b => f m b | none => m)
          m := by
  intro l
  induction l with
  | nil => intro m; rfl
  | cons a t ih =>
      intro m
      cases hg : g a with
      | none => rw [List.filterMap_cons_none hg, List.foldl_cons, hg, ih]
      | some b => rw [List.filterMap_cons_some hg, List.foldl_cons,
          List.foldl_cons, hg, ih]

theorem foldl_congr_fun {α γ : Type} (l : List α) (f g : γ → α → γ) :
    ∀ m : γ, (∀ m a, a ∈ l → f m a = g m a) → l.foldl f m = l.foldl g m := by
  induction l with
  | nil => intro m _; rfl
  | cons a t ih =>
      intro m h
      rw [List.foldl_cons, List.foldl_cons, h m a (List.mem_cons_self _ _)]
      exact ih _ (fun m b hb => h m b (List.mem_cons_of_mem _ hb))

theorem searchCandidates_eq (apps : List Application) :
    searchCandidates apps =
      apps.flatMap (fun app =>
        (candidateStrings app).map (fun c => (c, app))) := by
  induction apps with
  | nil => rfl
  | cons a t ih =>
      rw [searchCandidates, List.flatMap_cons, List.flatMap_cons, ← ih]
      rw [searchCandidates]
      simp [candidateStrings]

theorem filterMap_map_eq {α β γ : Type} (f : α → β) (g : β → Option γ) :
    ∀ l : List α, (l.map f).filterMap g = l.filterMap (fun a => g (f a)) := by
  intro l
  induction l with
  | nil => rfl
  | cons a t ih =>
      cases hg : g (f a) with
      | none => simp [List.filterMap_cons, hg, ih]
      | some b => simp [List.filterMap_cons, hg, ih]

theorem filterMap_flatMap_eq {α β γ : Type} (g : α → List β)
    (h : β → Option γ) :
    ∀ l : List α,
      (l.flatMap g).filterMap h = l.flatMap (fun a => (g a).filterMap h) := by
  intro l
  induction l with
  | nil => rfl
  | cons a t ih =>
      rw [List.flatMap_cons, List.flatMap_cons, List.filterMap_append, ih]

theorem thresholdPairs_eq (a : Application) (t : Nat) :
    ∀ ss : List Nat,
      ss.filterMap (fun s => if t ≤ s then some (a, s) else none) =
        (ss.filter (fun s => decide (t ≤ s))).map (fun s => (a, s)) := by
  intro ss
  induction ss with
  | nil => rfl
  | cons s t2 ih =>
      by_cases hs : t ≤ s
      · rw [List.filterMap_cons_some (by rw [if_pos hs]), List.filter_cons,
          if_pos (by simpa using hs), List.map_cons, ih]
      · rw [List.filterMap_cons_none (by rw [if_neg hs]), List.filter_cons,
          if_neg (by simpa using hs), ih]

theorem rawMatches_eq_flatMap (rfn pfn tfn : String → String → Nat)
    (query : String) (threshold : Nat) (apps : List Application) :
    rawMatches rfn pfn tfn query threshold apps =
      apps.flatMap (fun app =>
        (((candidateStrings app).map
              (candidateScore rfn pfn tfn query.toLower)).filter
            (fun s => decide (threshold ≤ s))).map (fun s => (app, s))) := by
  rw [rawMatches, searchCandidates_eq, filterMap_flatMap_eq]
  refine List.flatMap_congr ?_
  intro app _
  rw [filterMap_map_eq, ← thresholdPairs_eq app threshold]
  rw [filterMap_map_eq]

theorem dedup_raw_eq_spec (rfn pfn tfn : String → String → Nat)
    (query : String) (threshold : Nat) (apps : List Application) :
    dedupMatches (rawMatches rfn pfn tfn query threshold apps) =
      dedupMatches (specSurvivors rfn pfn tfn query threshold apps) := by
  rw [dedupMatches, dedupMatches, rawMatches_eq_flatMap, specSurvivors,
    foldl_flatMap_eq, foldl_filterMap_eq]
  refine foldl_congr_fun apps _ _ [] ?_
  intro m app _
  have hne : (candidateStrings app).map
      (candidateScore rfn pfn tfn query.toLower) ≠ [] := by
    simp [candidateStrings]
  by_cases hth : threshold ≤
      ((candidateStrings app).map
        (candidateScore rfn pfn tfn query.toLower)).foldl max 0
  · rcases filter_le_max_eq hne hth with ⟨hfne, hfeq⟩
    rw [foldl_dedup_pairs app _ m hfne, hfeq]
    have : entryScore rfn pfn tfn query app =
        ((candidateStrings app).map
          (candidateScore rfn pfn tfn query.toLower)).foldl max 0 := rfl
    rw [show (if threshold ≤ entryScore rfn pfn tfn query app then
        some (app, entryScore rfn pfn tfn query app) else none) =
        some (app, entryScore rfn pfn tfn query app) from
      if_pos (by rw [this]; exact hth)]
    rw [this]
  · rw [filter_lt_nil (Nat.not_le.1 hth), List.map_nil, List.foldl_nil]
    rw [show (if threshold ≤ entryScore rfn pfn tfn query app then
        some (app, entryScore rfn pfn tfn query app) else none) = none from
      if_neg hth]

/-- C3: the matcher implementation — per-candidate scoring with
`max(ratio, partial_ratio, token_sort_ratio)`, per-candidate thresholding,
dedup by (`name`, `path`) keeping the highest score, stable descending sort,
top 10 — computes exactly the spec description in which each entry is scored
once by the maximum over its display name, cleaned name and keywords, entries
below the threshold are discarded, and survivors are deduplicated, sorted
(ties in catalog order) and truncated. -/
theorem c3_find_application_matches_spec (rfn pfn tfn : String → String → Nat)
    (query : String) (threshold : Nat) (apps : List Application) :
    find_application rfn pfn tfn query threshold apps =
      find_application_spec rfn pfn tfn query threshold apps := by
  rw [find_application, find_application_spec, dedup_raw_eq_spec]

/-! ### C7 — threshold monotonicity -/

theorem rawMatches_higher (rfn pfn tfn : String → String → Nat)
    (query : String) (t1 t2 : Nat) (h : t1 ≤ t2) (apps : List Application) :
    rawMatches rfn pfn tfn query t2 apps =
      (rawMatches rfn pfn tfn query t1 apps).filter
        (fun p => decide (t2 ≤ p.2)) := by
  rw [rawMatches, rawMatches]
  induction searchCandidates apps with
  | nil => rfl
  | cons c cs ih =>
      by_cases h2 : t2 ≤ candidateScore rfn pfn tfn query.toLower c.1
      · have h1 : t1 ≤ candidateScore rfn pfn tfn query.toLower c.1 :=
          le_trans h h2
        simp only [List.filterMap_cons, if_pos h1, if_pos h2]
        rw [List.filter_cons, if_pos (by simpa using h2), ih]
      · by_cases h1 : t1 ≤ candidateScore rfn pfn tfn query.toLower c.1
        · simp only [List.filterMap_cons, if_pos h1, if_neg h2]
          rw [List.filter_cons, if_neg (by simpa using h2), ih]
        · simp only [List.filterMap_cons, if_neg h1, if_neg h2]
          exact ih

theorem dedupStep_key_mem (m : List ((String × String) × (Application × Nat)))
    (p : Application × Nat) (k : String × String) :
    k ∈ (dedupStep m p).map Prod.fst ↔
      k ∈ m.map Prod.fst ∨ k = matchKey p := by
  cases hg : alGet m (matchKey p) with
  | none =>
      rw [dedupStep_none m p hg, keys_alSet,
        if_neg ((alGet_eq_none_iff _ _).1 hg), List.mem_append]
      simp
  | some q =>
      have hmem : matchKey p ∈ m.map Prod.fst := by
        rw [← alGet_isSome_iff, hg]
        rfl
      have hsame : k ∈ m.map Prod.fst ↔
          k ∈ m.map Prod.fst ∨ k = matchKey p := by
        constructor
        · exact Or.inl
        · rintro (h1 | h1)
          · exact h1
          · exact h1 ▸ hmem
      by_cases hlt : q.2 < p.2
      · rw [dedupStep_lt m p q hg hlt, keys_alSet, if_pos hmem]
        exact hsame
      · rw [dedupStep_ge m p q hg hlt]
        exact hsame

theorem foldl_dedupStep_key_mem (l : List (Application × Nat)) :
    ∀ (m : List ((String × String) × (Application × Nat)))
      (k : String × String),
      k ∈ (l.foldl dedupStep m).map Prod.fst ↔
        k ∈ m.map Prod.fst ∨ k ∈ l.map matchKey := by
  induction l with
  | nil => intro m k; simp
  | cons p t ih =>
      intro m k
      rw [List.foldl_cons, ih (dedupStep m p) k, dedupStep_key_mem,
        List.map_cons, List.mem_cons]
      tauto

theorem foldl_dedupStep_keys_nodup (l : List (Application × Nat)) :
    ∀ m : List ((String × String) × (Application × Nat)),
      (m.map Prod.fst).Nodup → ((l.foldl dedupStep m).map Prod.fst).Nodup := by
  induction l with
  | nil => intro m hm; exact hm
  | cons p t ih =>
      intro m hm
      rw [List.foldl_cons]
      refine ih (dedupStep m p) ?_
      cases hg : alGet m (matchKey p) with
      | none => rw [dedupStep_none m p hg]; exact nodup_keys_alSet m _ p hm
      | some q =>
          by_cases hlt : q.2 < p.2
          · rw [dedupStep_lt m p q hg hlt]
            exact nodup_keys_alSet m _ p hm
          · rw [dedupStep_ge m p q hg hlt]
            exact hm

theorem dedupMatches_length (l : List (Application × Nat)) :
    (dedupMatches l).length = ((l.map matchKey).toFinset).card := by
  have hnd : ((dedupMatches l).map Prod.fst).Nodup :=
    foldl_dedupStep_keys_nodup l [] (by simp)
  have hset : ((dedupMatches l).map Prod.fst).toFinset =
      (l.map matchKey).toFinset := by
    apply Finset.ext
    intro k
    rw [List.mem_toFinset, List.mem_toFinset]
    have := foldl_dedupStep_key_mem l [] k
    simpa using this
  calc (dedupMatches l).length
      = ((dedupMatches l).map Prod.fst).length := (List.length_map _ _).symm
    _ = ((dedupMatches l).map Prod.fst).toFinset.card :=
        (List.toFinset_card_of_nodup hnd).symm
    _ = ((l.map matchKey).toFinset).card := by rw [hset]

theorem length_insertByScore (x : Application × Nat) :
    ∀ l : List (Application × Nat),
      (insertByScore x l).length = l.length + 1 := by
  intro l
  induction l with
  | nil => rfl
  | cons y ys ih =>
      rw [insertByScore]
      by_cases h : y.2 ≤ x.2
      · rw [if_pos h]
        rfl
      · rw [if_neg h, List.length_cons, ih, List.length_cons]

theorem length_sortByScoreDesc (l : List (Application × Nat)) :
    (sortByScoreDesc l).length = l.length := by
  induction l with
  | nil => rfl
  | cons x xs ih =>
      rw [sortByScoreDesc, length_insertByScore, ih, List.length_cons]

/-- C7: raising the matcher threshold never increases the number of returned
matches: every (query, catalog, similarity measures) gives
`|find_application t2| ≤ |find_application t1|` whenever `t1 ≤ t2`. -/
theorem c7_threshold_monotonicity (rfn pfn tfn : String → String → Nat)
    (query : String) (apps : List Application) (t1 t2 : Nat) (h : t1 ≤ t2) :
    (find_application rfn pfn tfn query t2 apps).length ≤
      (find_application rfn pfn tfn query t1 apps).length := by
  by_cases he : apps.isEmpty
  · rw [find_application, if_pos he, find_application, if_pos he]
  · rw [find_application, if_neg he, find_application, if_neg he,
      List.length_take, List.length_take, length_sortByScoreDesc,
      length_sortByScoreDesc, List.length_map, List.length_map,
      dedupMatches_length, dedupMatches_length]
    have hsub : ((rawMatches rfn pfn tfn query t2 apps).map
        matchKey).toFinset ⊆
        ((rawMatches rfn pfn tfn query t1 apps).map matchKey).toFinset := by
      rw [rawMatches_higher rfn pfn tfn query t1 t2 h apps]
      intro x hx
      rw [List.mem_toFinset] at hx ⊢
      rcases List.mem_map.1 hx with ⟨p, hp, rfl⟩
      exact List.mem_map_of_mem _ (List.mem_of_mem_filter hp)
    exact min_le_min (le_refl 10) (Finset.card_le_card hsub)

/-- Witness for C7: concrete thresholds 50 ≤ 70 on a singleton catalog with a
constant similarity measure. -/
theorem c7_witness : 50 ≤ 70 ∧
    (find_application constScore constScore constScore "x" 70 [appA]).length ≤
      (find_application constScore constScore constScore "x" 50
          [appA]).length :=
  ⟨by decide, c7_threshold_monotonicity constScore constScore constScore "x"
    [appA] 50 70 (by decide)⟩

/-! ### C8 — suggestion fallback -/

theorem find_application_nil_of_low (rfn pfn tfn : String → String → Nat)
    (query : String) (threshold : Nat) (apps : List Application)
    (h : ∀ a ∈ apps, entryScore rfn pfn tfn query a < threshold) :
    find_application rfn pfn tfn query threshold apps = [] := by
  rw [find_application]
  by_cases he : apps.isEmpty
  · rw [if_pos he]
  · rw [if_neg he, dedup_raw_eq_spec]
    have hs : specSurvivors rfn pfn tfn query threshold apps = [] := by
      rw [specSurvivors, List.filterMap_eq_nil_iff]
      intro a ha
      rw [if_neg (Nat.not_le.2 (h a ha))]
    rw [hs]
    rfl

/-- C8: when no catalog entry reaches the default threshold 70,
`launch_application_by_name` returns `success = false` with suggestions equal
to the first 5 matches recomputed at the lowered threshold 50; when every
entry also scores below 50, the suggestion list is empty. -/
theorem c8_suggestion_fallback (launchOk : Application → Bool)
    (rfn pfn tfn : String → String → Nat) (apps : List Application)
    (query : String)
    (h70 : ∀ a ∈ apps, entryScore rfn pfn tfn query a < 70) :
    (launch_application_by_name launchOk rfn pfn tfn apps query).success =
      false ∧
    (launch_application_by_name launchOk rfn pfn tfn apps query).suggestions =
      ((find_application rfn pfn tfn query 50 apps).take 5).map
        (fun p => (p.1.display_name, p.2, p.1.path)) ∧
    ((∀ a ∈ apps, entryScore rfn pfn tfn query a < 50) →
      (launch_application_by_name launchOk rfn pfn tfn apps
          query).suggestions = []) := by
  have h1 : find_application rfn pfn tfn query 70 apps = [] :=
    find_application_nil_of_low rfn pfn tfn query 70 apps h70
  refine ⟨?_, ?_, ?_⟩
  · rw [launch_application_by_name, h1]
  · rw [launch_application_by_name, h1]
  · intro h50
    have h2 : find_application rfn pfn tfn query 50 apps = [] :=
      find_application_nil_of_low rfn pfn tfn query 50 apps h50
    rw [launch_application_by_name, h1, h2]
    rfl

/-- Witness for C8: the all-zero similarity measure on a singleton catalog —
no match at 70 and an empty suggestion list at 50. -/
theorem c8_witness :
    (launch_application_by_name (fun _ => true) zeroScore zeroScore zeroScore
        [appA] "q").success = false ∧
    (launch_application_by_name (fun _ => true) zeroScore zeroScore zeroScore
        [appA] "q").suggestions = [] := by
  have h := c8_suggestion_fallback (fun _ => true) zeroScore zeroScore
    zeroScore [appA] "q" (by decide)
  exact ⟨h.1, h.2.2 (by decide)⟩

end JarvisApps
